import Mathlib

/-!
# Verification of the load-balancing simulator

Shallow embedding of `src/performance_comparison.cpp` (two program variants)
and `src/unnamed/part_000` (third variant).  The three variants share the same
policy code; the canonical `Server` (second variant, lines 374-402, and
`part_000` lines 10-33) accumulates `load += taskLoad` as a `double` and
`resetLoad()` zeroes it.  Doubles are embedded as rationals `ℚ` (exact
arithmetic).  Pools are built by the `LoadBalancer` constructor with
`Server(i, capabilities[i])`, so a server's `id` equals its position in the
vector; the policies mutate only the `load` fields, which lets us embed each
policy as a function on the list of accumulated loads indexed by position.
Randomness (`std::mt19937` draws) is modelled by an explicit oracle argument.
-/

namespace LoadSim

/-- A server as constructed by `LoadBalancer`: identity, capability weight and
accumulated load (`performance_comparison.cpp` lines 374-402).  `addLoad` adds
the task weight to `load`; `resetLoad` zeroes it; `getLoad`, `getId`,
`getCapability` are plain accessors. -/
structure Server where
  id : Nat
  capability : Int
  load : ℚ
deriving Repr, DecidableEq, Inhabited

/-- `servers[i].addLoad(w)` on the pool's load vector: `load += taskLoad` at
position `i`.  An out-of-range `i` leaves the vector unchanged (the C++
indexing would be out of bounds there; all policies index in range). -/
def addLoad : List ℚ → Nat → ℚ → List ℚ
  | [], _, _ => []
  | l :: rest, 0, w => (l + w) :: rest
  | l :: rest, i + 1, w => l :: addLoad rest i w

/-- `RandomLoadBalancing::balanceLoad`: each task weight is added to the server
at the next index drawn from the policy's random source; the draws are the
explicit list `choices` (each drawn uniformly from `[0, serverCount)` in the
C++). -/
def randomBalance : List ℚ → List Nat → List ℚ → List ℚ
  | loads, c :: cs, w :: ws => randomBalance (addLoad loads c w) cs ws
  | loads, _, _ => loads

/-- `RoundRobinLoadBalancing::balanceLoad`: assign each task to the cursor's
server, then advance the cursor by `(currentServer + 1) % servers.size()`
(`part_000` lines 88-93). -/
def roundRobinBalance : List ℚ → Nat → List ℚ → List ℚ
  | loads, _, [] => loads
  | loads, cur, w :: ws =>
      let loads2 := addLoad loads cur w
      roundRobinBalance loads2 ((cur + 1) % loads2.length) ws

/-- The scan inside `updateCurrentServer` / `ActiveClusteringLoadBalancing`:
walk the load vector keeping `(minLoad, minLoadServer)`, updating on a strictly
smaller load (`if (server.getLoad() < minLoad)`); `idx` is the position of the
head of the remaining list. -/
def minScanP : List ℚ → ℚ × Nat → Nat → ℚ × Nat
  | [], acc, _ => acc
  | l :: rest, acc, idx =>
      if l < acc.1 then minScanP rest (l, idx) (idx + 1) else minScanP rest acc (idx + 1)

/-- `WeightedRoundRobinLoadBalancing::updateCurrentServer` (and the identical
inline scan of Active Clustering), on the load vector: initialise with
`servers[0]`, scan all servers, return the id (= position) of the first server
holding the minimum load.  The C++ is undefined on an empty pool
(`servers[0]`); we return 0 there and hypothesise non-emptiness in theorems. -/
def minLoadIndex : List ℚ → Nat
  | [] => 0
  | l0 :: rest => (minScanP (l0 :: rest) (l0, 0) 0).2

/-- `WeightedRoundRobinLoadBalancing::balanceLoad`: assign each task to the
cursor's server, then recompute the cursor by the minimum-load scan
(`part_000` lines 105-110). -/
def wrrBalance : List ℚ → Nat → List ℚ → List ℚ
  | loads, _, [] => loads
  | loads, cur, w :: ws =>
      let loads2 := addLoad loads cur w
      wrrBalance loads2 (minLoadIndex loads2) ws

/-- `ActiveClusteringLoadBalancing::balanceLoad`: for every task, find the
server with minimum load by the same scan, then assign the task to it
(`part_000` lines 134-149). -/
def activeClusteringBalance : List ℚ → List ℚ → List ℚ
  | loads, [] => loads
  | loads, w :: ws => activeClusteringBalance (addLoad loads (minLoadIndex loads) w) ws

/-- The all-zero load vector of a freshly built pool of `n` servers. -/
def zeroLoads (n : Nat) : List ℚ :=
  List.replicate n 0

theorem addLoad_length (loads : List ℚ) (i : Nat) (w : ℚ) :
    (addLoad loads i w).length = loads.length := by
  induction loads generalizing i with
  | nil => rfl
  | cons l rest ih =>
      cases i with
      | zero => rfl
      | succ j => simpa [addLoad] using ih j

theorem addLoad_sum (loads : List ℚ) (i : Nat) (w : ℚ) (h : i < loads.length) :
    (addLoad loads i w).sum = loads.sum + w := by
  induction loads generalizing i with
  | nil => simp at h
  | cons l rest ih =>
      cases i with
      | zero => simp [addLoad]; ring
      | succ j =>
          have hj : j < rest.length := by simpa using h
          simp [addLoad, ih j hj]; ring

theorem addLoad_getD (loads : List ℚ) (i j : Nat) (w : ℚ) (h : i < loads.length) :
    (addLoad loads i w).getD j 0 = loads.getD j 0 + (if i = j then w else 0) := by
  induction loads generalizing i j with
  | nil => simp at h
  | cons l rest ih =>
      cases i with
      | zero =>
          cases j with
          | zero => simp [addLoad]
          | succ j' => simp [addLoad]
      | succ i' =>
          cases j with
          | zero => simp [addLoad]
          | succ j' =>
              have hi : i' < rest.length := by simpa using h
              simpa [addLoad] using ih i' j' hi

/-- Invariant-carrying characterization of the minimum scan: run on the suffix
of `full` starting at `idx`, with a current best value `v` found at position
`b`, it returns the position of the first minimum of `full` together with that
minimum value. -/
theorem minScanP_spec (l : List ℚ) (v : ℚ) (b idx : Nat) (full : List ℚ)
    (hlen : idx + l.length = full.length)
    (hsuf : ∀ k, k < l.length → l.getD k 0 = full.getD (idx + k) 0)
    (hb : b < full.length)
    (hbv : full.getD b 0 = v)
    (hmin : ∀ j, j < idx → v ≤ full.getD j 0)
    (hfirst : ∀ j, j < b → v < full.getD j 0) :
    (minScanP l (v, b) idx).2 < full.length ∧
    full.getD (minScanP l (v, b) idx).2 0 = (minScanP l (v, b) idx).1 ∧
    (∀ j, j < full.length → (minScanP l (v, b) idx).1 ≤ full.getD j 0) ∧
    (∀ j, j < (minScanP l (v, b) idx).2 →
      (minScanP l (v, b) idx).1 < full.getD j 0) := by
  induction l generalizing v b idx with
  | nil =>
      simp only [minScanP]
      refine ⟨hb, hbv, ?_, hfirst⟩
      intro j hj
      have hj' : j < idx := by simpa using hj.trans_le (by simpa using hlen.ge)
      exact hmin j (by omega)
  | cons x rest ih =>
      have hx0 : x = full.getD idx 0 := by simpa using hsuf 0 (by simp)
      have hidxlt : idx < full.length := by simp at hlen; omega
      have hlen' : (idx + 1) + rest.length = full.length := by simp at hlen; omega
      have hsuf' : ∀ k, k < rest.length → rest.getD k 0 = full.getD (idx + 1 + k) 0 := by
        intro k hk
        have := hsuf (k + 1) (by simpa using Nat.succ_lt_succ hk)
        simpa [Nat.add_comm, Nat.add_left_comm, Nat.add_assoc] using this
      by_cases hx : x < v
      · simp only [minScanP, if_pos hx]
        refine ih x idx (idx + 1) hlen' hsuf' hidxlt hx0.symm ?_ ?_
        · intro j hj
          rcases Nat.lt_succ_iff_lt_or_eq.mp hj with hj' | hj'
          · exact le_of_lt (hx.trans_le (hmin j hj'))
          · subst hj'; exact hx0.le
        · intro j hj
          exact hx.trans_le (hmin j hj)
      · simp only [minScanP, if_neg hx]
        refine ih v b (idx + 1) hlen' hsuf' hb hbv ?_ hfirst
        intro j hj
        rcases Nat.lt_succ_iff_lt_or_eq.mp hj with hj' | hj'
        · exact hmin j hj'
        · subst hj'; rw [← hx0]; exact le_of_not_lt hx

/-- `minLoadIndex` returns, for a non-empty load vector, the position of the
first server attaining the global minimum load: it is in range, its load is a
lower bound for every load, and every earlier position has strictly larger
load. -/
theorem minLoadIndex_spec (loads : List ℚ) (h : loads ≠ []) :
    minLoadIndex loads < loads.length ∧
    (∀ j, j < loads.length → loads.getD (minLoadIndex loads) 0 ≤ loads.getD j 0) ∧
    (∀ j, j < minLoadIndex loads → loads.getD (minLoadIndex loads) 0 < loads.getD j 0) := by
  match loads, h with
  | l0 :: rest, _ =>
      have hspec := minScanP_spec (l0 :: rest) l0 0 0 (l0 :: rest)
        (by simp) (by intro k hk; simp) (by simp) (by simp)
        (by intro j hj; omega) (by intro j hj; omega)
      have hval : (l0 :: rest).getD (minScanP (l0 :: rest) (l0, 0) 0).2 0 =
          (minScanP (l0 :: rest) (l0, 0) 0).1 := hspec.2.1
      refine ⟨hspec.1, ?_, ?_⟩
      · intro j hj
        show (l0 :: rest).getD (minScanP (l0 :: rest) (l0, 0) 0).2 0 ≤ (l0 :: rest).getD j 0
        rw [hval]
        exact hspec.2.2.1 j hj
      · intro j hj
        have hj' : j < (minScanP (l0 :: rest) (l0, 0) 0).2 := hj
        have := hspec.2.2.2 j hj'
        show (l0 :: rest).getD (minScanP (l0 :: rest) (l0, 0) 0).2 0 < (l0 :: rest).getD j 0
        rw [hval]
        exact this

theorem minLoadIndex_lt (loads : List ℚ) (h : loads ≠ []) :
    minLoadIndex loads < loads.length :=
  (minLoadIndex_spec loads h).1

theorem randomBalance_sum (choices : List Nat) (tasks : List ℚ) (loads : List ℚ)
    (hlen : choices.length = tasks.length)
    (hrange : ∀ c ∈ choices, c < loads.length) :
    (randomBalance loads choices tasks).sum = loads.sum + tasks.sum := by
  induction choices generalizing tasks loads with
  | nil =>
      match tasks, hlen with
      | [], _ => simp [randomBalance]
  | cons c cs ih =>
      match tasks, hlen with
      | w :: ws, hlen =>
          have hc : c < loads.length := hrange c (by simp)
          have hcs : ∀ x ∈ cs, x < (addLoad loads c w).length := by
            intro x hx
            rw [addLoad_length]
            exact hrange x (by simp [hx])
          rw [randomBalance, ih ws (addLoad loads c w) (by simpa using hlen) hcs,
            addLoad_sum loads c w hc]
          simp; ring

theorem roundRobinBalance_sum (tasks : List ℚ) (loads : List ℚ) (cur : Nat)
    (hcur : cur < loads.length) :
    (roundRobinBalance loads cur tasks).sum = loads.sum + tasks.sum := by
  induction tasks generalizing loads cur with
  | nil => simp [roundRobinBalance]
  | cons w ws ih =>
      have hlen : (addLoad loads cur w).length = loads.length := addLoad_length loads cur w
      have hpos : 0 < (addLoad loads cur w).length := by omega
      rw [roundRobinBalance]
      rw [ih (addLoad loads cur w) _ (Nat.mod_lt _ hpos), addLoad_sum loads cur w hcur]
      simp; ring

theorem wrrBalance_sum (tasks : List ℚ) (loads : List ℚ) (cur : Nat)
    (hcur : cur < loads.length) :
    (wrrBalance loads cur tasks).sum = loads.sum + tasks.sum := by
  induction tasks generalizing loads cur with
  | nil => simp [wrrBalance]
  | cons w ws ih =>
      have hlen : (addLoad loads cur w).length = loads.length := addLoad_length loads cur w
      have hne : addLoad loads cur w ≠ [] := by
        intro hnil
        rw [hnil] at hlen
        simp at hlen
        omega
      rw [wrrBalance]
      rw [ih (addLoad loads cur w) _ (minLoadIndex_lt _ hne), addLoad_sum loads cur w hcur]
      simp; ring

theorem activeClusteringBalance_sum (tasks : List ℚ) (loads : List ℚ)
    (hne : loads ≠ []) :
    (activeClusteringBalance loads tasks).sum = loads.sum + tasks.sum := by
  induction tasks generalizing loads with
  | nil => simp [activeClusteringBalance]
  | cons w ws ih =>
      have hcur : minLoadIndex loads < loads.length := minLoadIndex_lt loads hne
      have hlen : (addLoad loads (minLoadIndex loads) w).length = loads.length :=
        addLoad_length loads _ w
      have hne2 : addLoad loads (minLoadIndex loads) w ≠ [] := by
        intro hnil
        rw [hnil] at hlen
        simp at hlen
        exact hne (List.length_eq_zero.mp hlen.symm)
      rw [activeClusteringBalance]
      rw [ih (addLoad loads (minLoadIndex loads) w) hne2,
        addLoad_sum loads _ w hcur]
      simp; ring

theorem zeroLoads_sum (n : Nat) : (zeroLoads n).sum = 0 := by
  simp [zeroLoads]

/-- **C1.** For every non-empty pool with all accumulated loads initially zero
and every non-empty task sequence, a single `balanceLoad` call of the Random
(for any in-range sequence of random draws), Round-Robin, Weighted-Round-Robin
or Active-Clustering policy leaves the sum of the servers' accumulated loads
equal to the sum of the task weights: assigned work is conserved. -/
theorem conservation_of_assigned_work (n : Nat) (tasks : List ℚ) (choices : List Nat)
    (hn : 0 < n) (htasks : tasks ≠ [])
    (hclen : choices.length = tasks.length)
    (hcrange : ∀ c ∈ choices, c < n) :
    (randomBalance (zeroLoads n) choices tasks).sum = tasks.sum ∧
    (roundRobinBalance (zeroLoads n) 0 tasks).sum = tasks.sum ∧
    (wrrBalance (zeroLoads n) 0 tasks).sum = tasks.sum ∧
    (activeClusteringBalance (zeroLoads n) tasks).sum = tasks.sum := by
  have hlen : (zeroLoads n).length = n := by simp [zeroLoads]
  have hne : zeroLoads n ≠ [] := by
    intro h
    rw [h] at hlen
    simp at hlen
    omega
  have hcrange' : ∀ c ∈ choices, c < (zeroLoads n).length := by
    intro c hc; rw [hlen]; exact hcrange c hc
  refine ⟨?_, ?_, ?_, ?_⟩
  · rw [randomBalance_sum choices tasks _ hclen hcrange', zeroLoads_sum]; ring
  · rw [roundRobinBalance_sum tasks _ 0 (by omega), zeroLoads_sum]; ring
  · rw [wrrBalance_sum tasks _ 0 (by omega), zeroLoads_sum]; ring
  · rw [activeClusteringBalance_sum tasks _ hne, zeroLoads_sum]; ring

/-- Witness for C1 at a concrete input: 2 servers, tasks `[3, 5]`, random
draws `[1, 0]`. -/
theorem conservation_of_assigned_work_witness :
    0 < 2 ∧ ([(3 : ℚ), 5] ≠ []) ∧ [1, 0].length = [(3 : ℚ), 5].length ∧
      (∀ c ∈ [1, 0], c < 2) ∧
      ((randomBalance (zeroLoads 2) [1, 0] [(3 : ℚ), 5]).sum = [(3 : ℚ), 5].sum ∧
       (roundRobinBalance (zeroLoads 2) 0 [(3 : ℚ), 5]).sum = [(3 : ℚ), 5].sum ∧
       (wrrBalance (zeroLoads 2) 0 [(3 : ℚ), 5]).sum = [(3 : ℚ), 5].sum ∧
       (activeClusteringBalance (zeroLoads 2) [(3 : ℚ), 5]).sum = [(3 : ℚ), 5].sum) :=
  ⟨by decide, by decide, by decide, by decide,
    conservation_of_assigned_work 2 [(3 : ℚ), 5] [1, 0]
      (by decide) (by decide) (by decide) (by decide)⟩

/-- Sum of the task weights that the round-robin cursor, currently at `c` in a
pool of `s` servers, will send to server `i`: the head goes to `c`, then the
cursor advances modulo `s`. -/
def modSum : List ℚ → Nat → Nat → Nat → ℚ
  | [], _, _, _ => 0
  | w :: ws, c, s, i => (if c = i then w else 0) + modSum ws ((c + 1) % s) s i

theorem roundRobinBalance_getD (tasks : List ℚ) (loads : List ℚ) (cur i : Nat)
    (hcur : cur < loads.length) (hi : i < loads.length) :
    (roundRobinBalance loads cur tasks).getD i 0 =
      loads.getD i 0 + modSum tasks cur loads.length i := by
  induction tasks generalizing loads cur with
  | nil => simp [roundRobinBalance, modSum]
  | cons w ws ih =>
      have hlen : (addLoad loads cur w).length = loads.length := addLoad_length loads cur w
      have hpos : 0 < (addLoad loads cur w).length := by omega
      rw [roundRobinBalance]
      rw [ih (addLoad loads cur w) _ (Nat.mod_lt _ hpos) (by omega),
        addLoad_getD loads cur i w hcur, modSum, hlen]
      ring

theorem modSum_eq_filter_sum (tasks : List ℚ) (c s i : Nat) (hc : c < s) :
    modSum tasks c s i =
      ∑ p ∈ Finset.range tasks.length,
        (if (c + p) % s = i then tasks.getD p 0 else 0) := by
  induction tasks generalizing c with
  | nil => simp [modSum]
  | cons w ws ih =>
      have hcs : c % s = c := Nat.mod_eq_of_lt hc
      rw [modSum, ih ((c + 1) % s) (Nat.mod_lt _ (by omega))]
      rw [List.length_cons, Finset.sum_range_succ']
      have h0 : (if (c + 0) % s = i then (w :: ws).getD 0 0 else 0) =
          (if c = i then w else 0) := by
        simp [hcs]
      rw [h0]
      have hterm : ∀ p, (if ((c + 1) % s + p) % s = i then ws.getD p 0 else 0) =
          (if (c + (p + 1)) % s = i then (w :: ws).getD (p + 1) 0 else 0) := by
        intro p
        have hmod : ((c + 1) % s + p) % s = (c + (p + 1)) % s := by
          rw [Nat.mod_add_mod]
          ring_nf
        rw [hmod]
        simp
      rw [Finset.sum_congr rfl (fun p _ => hterm p)]
      ring

/-- **C4.** Round-Robin is deterministic: for a pool of `s` servers, all loads
initially zero and the cursor starting at 0, server `i` ends with exactly the
sum of the task weights at positions `i, i + s, i + 2s, …` — i.e. the tasks at
positions `p` with `p % s = i`. -/
theorem roundRobin_positions (s : Nat) (tasks : List ℚ) (i : Nat)
    (hs : 0 < s) (hi : i < s) :
    (roundRobinBalance (zeroLoads s) 0 tasks).getD i 0 =
      ∑ p ∈ Finset.range tasks.length,
        (if p % s = i then tasks.getD p 0 else 0) := by
  have hlen : (zeroLoads s).length = s := by simp [zeroLoads]
  rw [roundRobinBalance_getD tasks (zeroLoads s) 0 i (by omega) (by omega), hlen]
  rw [modSum_eq_filter_sum tasks 0 s i hs]
  have h0 : (zeroLoads s).getD i 0 = 0 := by
    simp [zeroLoads, List.getD_eq_getElem?_getD]
  rw [h0]
  simp

/-- Witness for C4, the spec's concrete scenario: 2 servers, tasks
`[3, 3, 3, 3]`; server 0 and server 1 each end with load 6 and the total is
12. -/
theorem roundRobin_positions_witness :
    0 < 2 ∧ (0 : Nat) < 2 ∧ 1 < 2 ∧
    ((roundRobinBalance (zeroLoads 2) 0 [(3 : ℚ), 3, 3, 3]).getD 0 0 =
      ∑ p ∈ Finset.range 4, (if p % 2 = 0 then [(3 : ℚ), 3, 3, 3].getD p 0 else 0)) ∧
    ((roundRobinBalance (zeroLoads 2) 0 [(3 : ℚ), 3, 3, 3]).getD 1 0 =
      ∑ p ∈ Finset.range 4, (if p % 2 = 1 then [(3 : ℚ), 3, 3, 3].getD p 0 else 0)) ∧
    (roundRobinBalance (zeroLoads 2) 0 [(3 : ℚ), 3, 3, 3]).getD 0 0 = 6 ∧
    (roundRobinBalance (zeroLoads 2) 0 [(3 : ℚ), 3, 3, 3]).getD 1 0 = 6 ∧
    (roundRobinBalance (zeroLoads 2) 0 [(3 : ℚ), 3, 3, 3]).sum = 12 :=
  ⟨by decide, by decide, by decide,
    roundRobin_positions 2 [(3 : ℚ), 3, 3, 3] 0 (by decide) (by decide),
    roundRobin_positions 2 [(3 : ℚ), 3, 3, 3] 1 (by decide) (by decide),
    by norm_num [roundRobinBalance, addLoad, zeroLoads, List.replicate],
    by norm_num [roundRobinBalance, addLoad, zeroLoads, List.replicate],
    by norm_num [roundRobinBalance, addLoad, zeroLoads, List.replicate]⟩

theorem minScanP_no_smaller (l : List ℚ) (acc : ℚ × Nat) (idx : Nat)
    (h : ∀ x ∈ l, ¬ x < acc.1) :
    minScanP l acc idx = acc := by
  induction l generalizing idx with
  | nil => rfl
  | cons x rest ih =>
      rw [minScanP, if_neg (h x (by simp))]
      exact ih _ (fun y hy => h y (by simp [hy]))

theorem minLoadIndex_zeroLoads (n : Nat) : minLoadIndex (zeroLoads n) = 0 := by
  cases n with
  | zero => rfl
  | succ m =>
      show minLoadIndex ((0 : ℚ) :: List.replicate m 0) = 0
      rw [minLoadIndex, minScanP_no_smaller]
      intro x hx
      rcases List.mem_cons.mp hx with h | h
      · simp [h]
      · simp [List.eq_of_mem_replicate h]

/-- From any load vector whose current WRR cursor is the first minimum-load
position, Weighted Round-Robin and Active Clustering make identical
assignments: WRR assigns at the cursor and recomputes it by the scan, Active
Clustering recomputes the scan before each assignment. -/
theorem wrrBalance_eq_activeClustering (tasks : List ℚ) (loads : List ℚ) :
    wrrBalance loads (minLoadIndex loads) tasks = activeClusteringBalance loads tasks := by
  induction tasks generalizing loads with
  | nil => rfl
  | cons w ws ih =>
      rw [wrrBalance, activeClusteringBalance]
      exact ih (addLoad loads (minLoadIndex loads) w)

/-- **C10.** Starting from a pool with all accumulated loads zero (WRR cursor
at 0), Weighted Round-Robin and Active Clustering assign every task to the
same server and produce identical final per-server loads; moreover, after each
assignment WRR's recomputed cursor is exactly the first-found minimum-load
index that Active Clustering computes before the next task. -/
theorem wrr_activeClustering_equivalent (n : Nat) (tasks : List ℚ) (hn : 0 < n) :
    wrrBalance (zeroLoads n) 0 tasks = activeClusteringBalance (zeroLoads n) tasks ∧
    (∀ loads' : List ℚ, ∀ ts : List ℚ,
      wrrBalance loads' (minLoadIndex loads') ts = activeClusteringBalance loads' ts) := by
  constructor
  · rw [← minLoadIndex_zeroLoads n]
    exact wrrBalance_eq_activeClustering tasks (zeroLoads n)
  · intro loads' ts
    exact wrrBalance_eq_activeClustering ts loads'

/-- Witness for C10: 2 servers, tasks `[5, 1, 1]`. -/
theorem wrr_activeClustering_equivalent_witness :
    0 < 2 ∧
    (wrrBalance (zeroLoads 2) 0 [(5 : ℚ), 1, 1] =
        activeClusteringBalance (zeroLoads 2) [(5 : ℚ), 1, 1] ∧
      (∀ loads' : List ℚ, ∀ ts : List ℚ,
        wrrBalance loads' (minLoadIndex loads') ts =
          activeClusteringBalance loads' ts)) :=
  ⟨by decide, wrr_activeClustering_equivalent 2 [(5 : ℚ), 1, 1] (by decide)⟩

/-- The scan inside `WeightedRoundRobinLoadBalancing::updateCurrentServer`
over the actual `Server` objects: update `(minLoad, minLoadServer)` from
`(server.getLoad(), server.getId())` on a strictly smaller load. -/
def minScanS : List Server → ℚ × Nat → ℚ × Nat
  | [], acc => acc
  | s :: rest, acc =>
      if s.load < acc.1 then minScanS rest (s.load, s.id) else minScanS rest acc

/-- `WeightedRoundRobinLoadBalancing::updateCurrentServer`
(`performance_comparison.cpp` lines 495-505): initialise the scan with
`servers[0]` and return the resulting `minLoadServer` id.  The C++ is
undefined on an empty pool; we return 0 there. -/
def updateCurrentServer : List Server → Nat
  | [] => 0
  | s0 :: rest => (minScanS (s0 :: rest) (s0.load, s0.id)).2

theorem minScanS_eq_minScanP (l : List Server) (v : ℚ) (b idx : Nat)
    (hid : ∀ k, k < l.length → (l.getD k default).id = idx + k) :
    minScanS l (v, b) = minScanP (l.map Server.load) (v, b) idx := by
  induction l generalizing v b idx with
  | nil => rfl
  | cons s rest ih =>
      have hs : s.id = idx := by simpa using hid 0 (by simp)
      have hid' : ∀ k, k < rest.length → (rest.getD k default).id = (idx + 1) + k := by
        intro k hk
        have := hid (k + 1) (by simpa using Nat.succ_lt_succ hk)
        simpa [Nat.add_comm, Nat.add_left_comm, Nat.add_assoc] using this
      by_cases hlt : s.load < v
      · rw [minScanS, if_pos hlt, List.map_cons, minScanP, if_pos hlt, hs]
        exact ih s.load idx (idx + 1) hid'
      · rw [minScanS, if_neg hlt, List.map_cons, minScanP, if_neg hlt]
        exact ih v b (idx + 1) hid'

theorem updateCurrentServer_eq_minLoadIndex (servers : List Server)
    (hid : ∀ k, k < servers.length → (servers.getD k default).id = k) :
    updateCurrentServer servers = minLoadIndex (servers.map Server.load) := by
  match servers with
  | [] => rfl
  | s0 :: rest =>
      have h0 : s0.id = 0 := by simpa using hid 0 (by simp)
      show (minScanS (s0 :: rest) (s0.load, s0.id)).2 = _
      rw [h0, minScanS_eq_minScanP (s0 :: rest) s0.load 0 0 (by simpa using hid)]
      rfl

theorem minScanS_capability_independent (l : List Server) (acc : ℚ × Nat)
    (f : Server → Int) :
    minScanS (l.map fun s => { s with capability := f s }) acc = minScanS l acc := by
  induction l generalizing acc with
  | nil => rfl
  | cons s rest ih =>
      by_cases hlt : s.load < acc.1
      · rw [List.map_cons, minScanS, minScanS, if_pos hlt, if_pos hlt]
        exact ih _
      · rw [List.map_cons, minScanS, minScanS, if_neg hlt, if_neg hlt]
        exact ih _

/-- **C5.** In Weighted Round-Robin, the cursor recomputed after each
assignment (`updateCurrentServer`) is the id of the server holding the
globally minimum accumulated load, taking the first minimum found under the
ascending-id scan (ties broken by lowest id); server capability plays no role
in the selection.  Stated for pools built by the `LoadBalancer` constructor,
where a server's id equals its position. -/
theorem updateCurrentServer_spec (servers : List Server)
    (hne : servers ≠ [])
    (hid : ∀ k, k < servers.length → (servers.getD k default).id = k) :
    updateCurrentServer servers < servers.length ∧
    (∀ j, j < servers.length →
      (servers.getD (updateCurrentServer servers) default).load ≤
        (servers.getD j default).load) ∧
    (∀ j, j < updateCurrentServer servers →
      (servers.getD (updateCurrentServer servers) default).load <
        (servers.getD j default).load) ∧
    (∀ f : Server → Int,
      updateCurrentServer (servers.map fun s => { s with capability := f s }) =
        updateCurrentServer servers) ∧
    (∀ loads : List ℚ, ∀ cur : Nat, ∀ w : ℚ, ∀ ws : List ℚ,
      wrrBalance loads cur (w :: ws) =
        wrrBalance (addLoad loads cur w) (minLoadIndex (addLoad loads cur w)) ws) := by
  have hmapne : servers.map Server.load ≠ [] := by
    intro h
    exact hne (List.map_eq_nil.mp h)
  have hmaplen : (servers.map Server.load).length = servers.length := by simp
  have hgetD : ∀ j, j < servers.length →
      (servers.map Server.load).getD j 0 = (servers.getD j default).load := by
    intro j hj
    rw [List.getD_eq_getElem _ _ (by omega), List.getD_eq_getElem _ _ hj]
    simp
  have heq := updateCurrentServer_eq_minLoadIndex servers hid
  have hspec := minLoadIndex_spec (servers.map Server.load) hmapne
  have hlt : updateCurrentServer servers < servers.length := by
    rw [heq]; omega
  refine ⟨hlt, ?_, ?_, ?_, ?_⟩
  · intro j hj
    have := hspec.2.1 j (by omega)
    rw [← heq] at this
    rwa [hgetD _ hlt, hgetD _ hj] at this
  · intro j hj
    have := hspec.2.2 j (by rwa [heq] at hj)
    rw [← heq] at this
    have hjlt : j < servers.length := hj.trans hlt
    rwa [hgetD _ hlt, hgetD _ hjlt] at this
  · intro f
    match servers, hne with
    | s0 :: rest, _ =>
        show (minScanS ((s0 :: rest).map fun s => { s with capability := f s })
          ((s0.load), (s0.id))).2 = (minScanS (s0 :: rest) (s0.load, s0.id)).2
        rw [minScanS_capability_independent (s0 :: rest) (s0.load, s0.id) f]
  · intro loads cur w ws
    rfl

/-- Witness for C5: the pool `[{id 0, cap 7, load 4}, {id 1, cap 2, load 1}]`. -/
theorem updateCurrentServer_spec_witness :
    ([⟨0, 7, 4⟩, ⟨1, 2, 1⟩] : List Server) ≠ [] ∧
    (∀ k, k < ([⟨0, 7, 4⟩, ⟨1, 2, 1⟩] : List Server).length →
      (([⟨0, 7, 4⟩, ⟨1, 2, 1⟩] : List Server).getD k default).id = k) ∧
    updateCurrentServer ([⟨0, 7, 4⟩, ⟨1, 2, 1⟩] : List Server) <
      ([⟨0, 7, 4⟩, ⟨1, 2, 1⟩] : List Server).length :=
  ⟨by decide, by decide,
    (updateCurrentServer_spec ([⟨0, 7, 4⟩, ⟨1, 2, 1⟩] : List Server)
      (by decide) (by decide)).1⟩

/-- The `LoadBalancer` constructor (`performance_comparison.cpp` lines
408-414): build the pool `Server(i, capabilities[i])` for `i` below the number
of capabilities, each starting with zero accumulated load. -/
def mkServers (capabilities : List Int) : List Server :=
  capabilities.enum.map fun p => { id := p.1, capability := p.2, load := 0 }

/-- `LoadBalancer::run` (`performance_comparison.cpp` lines 416-419): a fresh
policy object is constructed from the driver's pool — the policy holds its own
`std::vector<Server>` copy — and `balanceLoad` mutates that private copy.  The
result of the policy is discarded and the driver's pool is returned
unchanged. -/
def run (servers : List Server) (policy : List Server → List ℚ → List Server)
    (taskLoads : List ℚ) : List Server :=
  let algorithmServers := servers
  let _ := policy algorithmServers taskLoads
  servers

/-- `LoadBalancer::getTotalLoad` (`performance_comparison.cpp` lines 421-427):
fold the servers' accumulated loads starting from `0.0`. -/
def getTotalLoad (servers : List Server) : ℚ :=
  servers.foldl (fun acc s => acc + s.load) 0

/-- `LoadBalancer::getThroughput` (`performance_comparison.cpp` lines
429-436): fold the capabilities starting from `0.0`, then return
`totalLoad / simulatedTime / totalCapability`. -/
def getThroughput (servers : List Server) (simulatedTime : ℚ) : ℚ :=
  let totalCapability : ℚ := servers.foldl (fun acc s => acc + (s.capability : ℚ)) 0
  getTotalLoad servers / simulatedTime / totalCapability

theorem foldl_add_eq_sum {α : Type} (f : α → ℚ) (l : List α) (a : ℚ) :
    l.foldl (fun acc x => acc + f x) a = a + (l.map f).sum := by
  induction l generalizing a with
  | nil => simp
  | cons x rest ih =>
      rw [List.foldl_cons, ih]
      simp
      ring

theorem getTotalLoad_eq_sum (servers : List Server) :
    getTotalLoad servers = (servers.map Server.load).sum := by
  rw [getTotalLoad, foldl_add_eq_sum Server.load servers 0]
  ring

theorem mkServers_loads (capabilities : List Int) :
    (mkServers capabilities).map Server.load = List.replicate capabilities.length 0 := by
  rw [mkServers, List.map_map]
  have hconst : (Server.load ∘ fun p : Nat × Int =>
      ({ id := p.1, capability := p.2, load := 0 } : Server)) = fun _ => (0 : ℚ) := rfl
  rw [hconst, List.map_const', List.enum_length]

/-- **C2.** Calling `run` any number of times, with any policies and any task
batches, leaves the driver's own server pool unchanged (the policy operates on
an independent copy), so `getTotalLoad` and `getThroughput` return the same
values after the runs as before them; on a freshly constructed `LoadBalancer`
they return 0 (the loads are all zero, so also the throughput numerator). -/
theorem run_preserves_driver_pool (capabilities : List Int)
    (batches : List ((List Server → List ℚ → List Server) × List ℚ)) :
    (batches.foldl (fun pool b => run pool b.1 b.2) (mkServers capabilities)) =
      mkServers capabilities ∧
    getTotalLoad
        (batches.foldl (fun pool b => run pool b.1 b.2) (mkServers capabilities)) =
      getTotalLoad (mkServers capabilities) ∧
    (∀ t : ℚ,
      getThroughput
          (batches.foldl (fun pool b => run pool b.1 b.2) (mkServers capabilities)) t =
        getThroughput (mkServers capabilities) t) ∧
    getTotalLoad
        (batches.foldl (fun pool b => run pool b.1 b.2) (mkServers capabilities)) = 0 ∧
    (∀ t : ℚ,
      getThroughput
          (batches.foldl (fun pool b => run pool b.1 b.2) (mkServers capabilities)) t = 0) := by
  have hfix : (batches.foldl (fun pool b => run pool b.1 b.2) (mkServers capabilities)) =
      mkServers capabilities := by
    induction batches with
    | nil => rfl
    | cons b bs ih => simpa [run] using ih
  have htotal : getTotalLoad (mkServers capabilities) = 0 := by
    rw [getTotalLoad_eq_sum, mkServers_loads]
    simp
  refine ⟨hfix, by rw [hfix], fun t => by rw [hfix], by rw [hfix, htotal], fun t => ?_⟩
  rw [hfix, getThroughput, htotal]
  simp

theorem getThroughput_eq_formula (servers : List Server) (t : ℚ) :
    getThroughput servers t =
      getTotalLoad servers / t / ((servers.map fun s => (s.capability : ℚ)).sum) := by
  rw [getThroughput, foldl_add_eq_sum (fun s => (s.capability : ℚ)) servers 0]
  ring_nf

/-- **C7.** `getThroughput(simulatedTime)` equals
`totalLoad / simulatedTime / totalCapability` where `totalCapability` is the
sum of all server capabilities; consequently, for fixed loads and nonzero
`simulatedTime`, scaling every server's capability by a constant `k > 0`
scales the reported throughput by `1/k`. -/
theorem getThroughput_formula_and_scaling (servers : List Server) (t : ℚ) (k : Int)
    (hk : 0 < k) (ht : t ≠ 0) :
    getThroughput servers t =
      getTotalLoad servers / t / ((servers.map fun s => (s.capability : ℚ)).sum) ∧
    getThroughput (servers.map fun s => { s with capability := k * s.capability }) t =
      getThroughput servers t / (k : ℚ) := by
  refine ⟨getThroughput_eq_formula servers t, ?_⟩
  have hloads : (servers.map fun s => { s with capability := k * s.capability }).map
      Server.load = servers.map Server.load := by
    rw [List.map_map]
    rfl
  have hfun : ((fun s => (s.capability : ℚ)) ∘
      fun s : Server => { s with capability := k * s.capability }) =
      fun s : Server => (k : ℚ) * (s.capability : ℚ) := by
    funext s
    show ((k * s.capability : Int) : ℚ) = (k : ℚ) * (s.capability : ℚ)
    push_cast
    ring
  have hcaps : ((servers.map fun s => { s with capability := k * s.capability }).map
      fun s => (s.capability : ℚ)).sum =
      (k : ℚ) * ((servers.map fun s => (s.capability : ℚ)).sum) := by
    rw [List.map_map, hfun, List.sum_map_mul_left]
  rw [getThroughput_eq_formula, getThroughput_eq_formula,
    getTotalLoad_eq_sum, getTotalLoad_eq_sum, hloads, hcaps]
  rw [div_div, div_div, div_div, mul_comm ((servers.map fun s => (s.capability : ℚ)).sum)]

/-- Witness for C7: one server `{id 0, cap 3, load 5}`, time 2, scale `k = 4`. -/
theorem getThroughput_formula_and_scaling_witness :
    (0 : Int) < 4 ∧ (2 : ℚ) ≠ 0 ∧
    (getThroughput [⟨0, 3, 5⟩] 2 =
        getTotalLoad [⟨0, 3, 5⟩] / 2 /
          ((([⟨0, 3, 5⟩] : List Server).map fun s => (s.capability : ℚ)).sum) ∧
      getThroughput (([⟨0, 3, 5⟩] : List Server).map
          fun s => { s with capability := 4 * s.capability }) 2 =
        getThroughput [⟨0, 3, 5⟩] 2 / ((4 : Int) : ℚ)) :=
  ⟨by decide, by norm_num,
    getThroughput_formula_and_scaling [⟨0, 3, 5⟩] 2 4 (by decide) (by norm_num)⟩

/-! ## Ant Colony Optimization

Embedding of `AntColonyOptimizationLoadBalancing` (`performance_comparison.cpp`
lines 181-271, the complete variant).  `alpha = 1.0` and `beta = 2.0` appear
only as `std::pow` exponents, embedded as the natural exponents 1 and 2;
`rho = 0.5` and `Q = 1.0` are exact rationals.  The `std::mt19937` draws of
`selectNextServer` are modelled by an oracle giving the drawn real per
(iteration, taskId). -/

/-- Pheromone importance exponent `alpha = 1.0` (as the `std::pow` exponent). -/
def acoAlpha : Nat := 1

/-- Heuristic importance exponent `beta = 2.0` (as the `std::pow` exponent). -/
def acoBeta : Nat := 2

/-- Pheromone evaporation rate `rho = 0.5`. -/
def acoRho : ℚ := 1 / 2

/-- Pheromone deposit quantity `Q = 1.0`. -/
def acoQ : ℚ := 1

/-- Iteration count `numIterations = 100` of the complete variant. -/
def acoNumIterations : Nat := 100

/-- Initial pheromone trails: a `numTasks × numServers` matrix of `1.0`. -/
def initPheromones (numTasks numServers : Nat) : List (List ℚ) :=
  List.replicate numTasks (List.replicate numServers 1)

/-- The probability row of `selectNextServer`: for each `serverId` below the
server count, `pow(pheromone, alpha) * (1 / pow(serverLoad + taskLoad, beta))`
(`performance_comparison.cpp` lines 224-232). -/
def probabilities (pherRow loads : List ℚ) (task : ℚ) : List ℚ :=
  (List.range loads.length).map fun serverId =>
    (pherRow.getD serverId 0) ^ acoAlpha *
      (1 / (loads.getD serverId 0 + task) ^ acoBeta)

/-- The roulette-wheel loop of `selectNextServer`: accumulate the cumulative
probability and return the first index at which it meets or exceeds the drawn
`selection`; `none` when the loop falls through. -/
def rouletteScan : List ℚ → ℚ → ℚ → Option Nat
  | [], _, _ => none
  | p :: ps, acc, selection =>
      if selection ≤ acc + p then some 0
      else (rouletteScan ps (acc + p) selection).map (fun i => i + 1)

/-- `AntColonyOptimizationLoadBalancing::selectNextServer`
(`performance_comparison.cpp` lines 220-249) for one task: compute the
probability row, run the roulette wheel on the drawn value, and fall back to
the last server (`numServers - 1`) when no index qualifies. -/
def selectNextServer (pherRow loads : List ℚ) (task : ℚ) (draw : ℚ) : Nat :=
  (rouletteScan (probabilities pherRow loads task) 0 draw).getD (loads.length - 1)

/-- The ant-movement loop of one iteration (`performance_comparison.cpp`
lines 202-205): for each `taskId` in order, select a server from the current
pheromones and current loads, and add the task's weight to it. -/
def moveAnts : List ℚ → List (List ℚ) → Nat → (Nat → ℚ) → List ℚ → List ℚ
  | loads, _, _, _, [] => loads
  | loads, pher, taskId, draw, w :: ws =>
      moveAnts
        (addLoad loads (selectNextServer (pher.getD taskId []) loads w (draw taskId)) w)
        pher (taskId + 1) draw ws

/-- Pheromone evaporation (`performance_comparison.cpp` lines 257-261):
every entry is multiplied by `(1.0 - rho)`. -/
def evaporate (pher : List (List ℚ)) : List (List ℚ) :=
  pher.map fun row => row.map fun p => p * (1 - acoRho)

/-- Inner deposit loop over `serverId` for a fixed `taskId`
(`performance_comparison.cpp` lines 264-269): add
`Q / (servers[serverId].getLoad() + taskLoads[taskId])` to each entry. -/
def depositRow : List ℚ → Nat → Nat → List ℚ → List ℚ → List ℚ
  | [], _, _, _, _ => []
  | p :: ps, serverId, taskId, loads, tasks =>
      (p + acoQ / (loads.getD serverId 0 + tasks.getD taskId 0)) ::
        depositRow ps (serverId + 1) taskId loads tasks

/-- Outer deposit loop over `taskId`. -/
def depositRows : List (List ℚ) → Nat → List ℚ → List ℚ → List (List ℚ)
  | [], _, _, _ => []
  | row :: rows, taskId, loads, tasks =>
      depositRow row 0 taskId loads tasks :: depositRows rows (taskId + 1) loads tasks

/-- `AntColonyOptimizationLoadBalancing::updatePheromones`
(`performance_comparison.cpp` lines 251-270): evaporate every entry, then
deposit onto every (task, server) pair from the current server loads. -/
def updatePheromones (pher : List (List ℚ)) (loads tasks : List ℚ) : List (List ℚ) :=
  depositRows (evaporate pher) 0 loads tasks

/-- The reset loop at the end of each iteration (`performance_comparison.cpp`
lines 211-213): `server.resetLoad()` for every server. -/
def resetAll (loads : List ℚ) : List ℚ :=
  loads.map fun _ => 0

/-- One iteration of the ACO loop (`performance_comparison.cpp` lines
200-214): move all ants, update the pheromones from the post-assignment
loads, then reset every server load — including on the final iteration. -/
def acoIteration (st : List ℚ × List (List ℚ)) (tasks : List ℚ) (draw : Nat → ℚ) :
    List ℚ × List (List ℚ) :=
  let loads2 := moveAnts st.1 st.2 0 draw tasks
  let pher2 := updatePheromones st.2 loads2 tasks
  (resetAll loads2, pher2)

/-- `AntColonyOptimizationLoadBalancing::balanceLoad`
(`performance_comparison.cpp` lines 185-215): initialise the pheromone matrix
to all ones and run `numIterations` iterations; `draw it t` is the value drawn
by iteration `it` for task `t`. -/
def acoBalanceLoad (loads : List ℚ) (tasks : List ℚ) (draw : Nat → Nat → ℚ)
    (numIterations : Nat) : List ℚ × List (List ℚ) :=
  (List.range numIterations).foldl (fun st it => acoIteration st tasks (draw it))
    (loads, initPheromones tasks.length loads.length)

theorem moveAnts_length (tasks : List ℚ) (loads : List ℚ) (pher : List (List ℚ))
    (taskId : Nat) (draw : Nat → ℚ) :
    (moveAnts loads pher taskId draw tasks).length = loads.length := by
  induction tasks generalizing loads taskId with
  | nil => rfl
  | cons w ws ih =>
      rw [moveAnts, ih, addLoad_length]

theorem acoIteration_fst (st : List ℚ × List (List ℚ)) (tasks : List ℚ)
    (draw : Nat → ℚ) :
    (acoIteration st tasks draw).1 = List.replicate st.1.length 0 := by
  show resetAll (moveAnts st.1 st.2 0 draw tasks) = _
  rw [resetAll, List.map_const', moveAnts_length]

theorem acoBalanceLoad_fst (loads : List ℚ) (tasks : List ℚ) (draw : Nat → Nat → ℚ)
    (n : Nat) (hn : 1 ≤ n) :
    (acoBalanceLoad loads tasks draw n).1 = List.replicate loads.length 0 := by
  have hlen : ∀ m, ((acoBalanceLoad loads tasks draw m).1).length = loads.length := by
    intro m
    induction m with
    | zero => rfl
    | succ k ih =>
        rw [acoBalanceLoad, List.range_succ, List.foldl_append, List.foldl_cons,
          List.foldl_nil]
        rw [acoBalanceLoad] at ih
        rw [acoIteration_fst, List.length_replicate, ih]
  match n, hn with
  | k + 1, _ =>
      rw [acoBalanceLoad, List.range_succ, List.foldl_append, List.foldl_cons,
        List.foldl_nil, acoIteration_fst]
      have := hlen k
      rw [acoBalanceLoad] at this
      rw [this]

/-- **C3 (amended).** In the ACO policy, server loads are reset to zero at the
end of every iteration *including* the last, so no iteration's assignments
persist: for every iteration count ≥ 1 — in particular for the code's 100 and
also for a count of 1 — the externally observed loads after `balanceLoad` are
all zero and the total load is zero. -/
theorem aco_resets_every_iteration (loads : List ℚ) (tasks : List ℚ)
    (draw : Nat → Nat → ℚ) (n : Nat) (hn : 1 ≤ n) :
    (acoBalanceLoad loads tasks draw n).1 = List.replicate loads.length 0 ∧
    ((acoBalanceLoad loads tasks draw n).1).sum = 0 ∧
    ((acoBalanceLoad loads tasks draw acoNumIterations).1).sum = 0 := by
  refine ⟨acoBalanceLoad_fst loads tasks draw n hn, ?_, ?_⟩
  · rw [acoBalanceLoad_fst loads tasks draw n hn]
    simp
  · rw [acoBalanceLoad_fst loads tasks draw acoNumIterations (by norm_num [acoNumIterations])]
    simp

/-- Witness for C3 (amended): 1 server with zero load, tasks `[1]`, the draw
oracle constantly 0, iteration count 1. -/
theorem aco_resets_every_iteration_witness :
    1 ≤ 1 ∧
    ((acoBalanceLoad (zeroLoads 1) [(1 : ℚ)] (fun _ _ => 0) 1).1 =
        List.replicate (zeroLoads 1).length 0 ∧
      ((acoBalanceLoad (zeroLoads 1) [(1 : ℚ)] (fun _ _ => 0) 1).1).sum = 0 ∧
      ((acoBalanceLoad (zeroLoads 1) [(1 : ℚ)] (fun _ _ => 0) acoNumIterations).1).sum = 0) :=
  ⟨le_refl 1, aco_resets_every_iteration (zeroLoads 1) [(1 : ℚ)] (fun _ _ => 0) 1 (le_refl 1)⟩

/-- Counterexample to C3 as stated: with iteration count exactly 1, one server
and the task list `[1]`, the claim says the final iteration's assignments
persist (so the total load would be the task weight 1), but the code resets
the loads after the pheromone update of the last iteration as well: the
observed total load is 0, not 1. -/
theorem aco_resets_counterexample :
    ((acoBalanceLoad (zeroLoads 1) [(1 : ℚ)] (fun _ _ => 0) 1).1).sum = 0 ∧
    ((0 : ℚ) ≠ ([(1 : ℚ)]).sum) := by
  constructor
  · rw [acoBalanceLoad_fst (zeroLoads 1) [(1 : ℚ)] (fun _ _ => 0) 1 (le_refl 1)]
    simp
  · norm_num

theorem rouletteScan_some_lt (probs : List ℚ) (acc selection : ℚ) (i : Nat)
    (h : rouletteScan probs acc selection = some i) : i < probs.length := by
  induction probs generalizing acc i with
  | nil => simp [rouletteScan] at h
  | cons p ps ih =>
      rw [rouletteScan] at h
      by_cases hsel : selection ≤ acc + p
      · rw [if_pos hsel] at h
        simp at h
        simp [← h]
      · rw [if_neg hsel] at h
        match hscan : rouletteScan ps (acc + p) selection with
        | none => rw [hscan] at h; simp at h
        | some i' =>
            rw [hscan] at h
            simp at h
            have := ih (acc + p) i' hscan
            simp only [List.length_cons]
            omega

theorem rouletteScan_none_nil (probs : List ℚ) (acc selection : ℚ)
    (hsel : selection ≤ acc + probs.sum)
    (hnone : rouletteScan probs acc selection = none) : probs = [] := by
  induction probs generalizing acc with
  | nil => rfl
  | cons p ps ih =>
      rw [rouletteScan] at hnone
      by_cases hp : selection ≤ acc + p
      · rw [if_pos hp] at hnone
        exact absurd hnone (by simp)
      · rw [if_neg hp] at hnone
        have hinner : rouletteScan ps (acc + p) selection = none :=
          Option.map_eq_none.mp hnone
        have hsel' : selection ≤ (acc + p) + ps.sum := by
          rw [List.sum_cons] at hsel
          linarith
        have hps : ps = [] := ih (acc + p) hsel' hinner
        exfalso
        apply hp
        rw [hps] at hsel'
        simpa using hsel'

/-- If the drawn value does not exceed the total probability, the roulette
loop returns within the loop: the fallback branch is unreachable. -/
theorem rouletteScan_isSome (probs : List ℚ) (acc selection : ℚ)
    (hne : probs ≠ []) (hsel : selection ≤ acc + probs.sum) :
    rouletteScan probs acc selection ≠ none := fun hnone =>
  hne (rouletteScan_none_nil probs acc selection hsel hnone)

/-- The index returned by the roulette loop is the first whose cumulative
probability meets or exceeds the drawn value. -/
theorem rouletteScan_first (probs : List ℚ) (acc selection : ℚ) (i : Nat)
    (h : rouletteScan probs acc selection = some i) :
    selection ≤ acc + (probs.take (i + 1)).sum ∧
    (∀ j, j < i → acc + (probs.take (j + 1)).sum < selection) := by
  induction probs generalizing acc i with
  | nil => simp [rouletteScan] at h
  | cons p ps ih =>
      rw [rouletteScan] at h
      by_cases hp : selection ≤ acc + p
      · rw [if_pos hp] at h
        simp at h
        subst h
        refine ⟨by simpa using hp, ?_⟩
        intro j hj
        omega
      · rw [if_neg hp] at h
        match hscan : rouletteScan ps (acc + p) selection with
        | none => rw [hscan] at h; simp at h
        | some i' =>
            rw [hscan] at h
            simp at h
            subst h
            have hih := ih (acc + p) i' hscan
            constructor
            · rw [List.take_succ_cons, List.sum_cons]
              have := hih.1
              linarith
            · intro j hj
              cases j with
              | zero =>
                  simpa using lt_of_not_le hp
              | succ j' =>
                  rw [List.take_succ_cons, List.sum_cons]
                  have := hih.2 j' (by omega)
                  linarith

/-- **C9.** ACO roulette-wheel selection is total and in-range: for every
non-empty server pool, `selectNextServer` returns an index below the server
count; when the loop returns an index, it is the first server whose cumulative
probability meets or exceeds the draw (the last server, `numServers - 1`,
being the deterministic fall-through); and in exact arithmetic a draw taken
from `[0, totalProbability)` never reaches the fallback, because the final
cumulative sum equals `totalProbability`, which is at least the draw. -/
theorem selectNextServer_spec (pherRow loads : List ℚ) (task draw : ℚ)
    (hn : 0 < loads.length) :
    selectNextServer pherRow loads task draw < loads.length ∧
    (∀ i, rouletteScan (probabilities pherRow loads task) 0 draw = some i →
      selectNextServer pherRow loads task draw = i ∧
      draw ≤ ((probabilities pherRow loads task).take (i + 1)).sum ∧
      (∀ j, j < i → ((probabilities pherRow loads task).take (j + 1)).sum < draw)) ∧
    (draw ≤ (probabilities pherRow loads task).sum →
      rouletteScan (probabilities pherRow loads task) 0 draw ≠ none) := by
  have hplen : (probabilities pherRow loads task).length = loads.length := by
    simp [probabilities]
  have hpne : probabilities pherRow loads task ≠ [] := by
    intro hnil
    rw [hnil] at hplen
    simp at hplen
    omega
  refine ⟨?_, ?_, ?_⟩
  · rw [selectNextServer]
    match hscan : rouletteScan (probabilities pherRow loads task) 0 draw with
    | none => simpa using Nat.sub_lt hn Nat.one_pos
    | some i =>
        have := rouletteScan_some_lt _ _ _ _ hscan
        simpa using by omega
  · intro i hscan
    refine ⟨by rw [selectNextServer, hscan]; rfl, ?_, ?_⟩
    · simpa using (rouletteScan_first _ _ _ _ hscan).1
    · intro j hj
      simpa using (rouletteScan_first _ _ _ _ hscan).2 j hj
  · intro hdraw
    exact rouletteScan_isSome _ 0 draw hpne (by simpa using hdraw)

/-- Witness for C9: pheromone row `[1, 1]`, loads `[0, 0]`, task weight 1,
draw 0. -/
theorem selectNextServer_spec_witness :
    0 < ([(0 : ℚ), 0]).length ∧
    selectNextServer [(1 : ℚ), 1] [(0 : ℚ), 0] 1 0 < ([(0 : ℚ), 0]).length :=
  ⟨by decide, (selectNextServer_spec [(1 : ℚ), 1] [(0 : ℚ), 0] 1 0 (by decide)).1⟩

theorem getD_nonneg (l : List ℚ) (i : Nat) (h : ∀ x ∈ l, 0 ≤ x) :
    0 ≤ l.getD i 0 := by
  by_cases hi : i < l.length
  · rw [List.getD_eq_getElem _ _ hi]
    exact h _ (List.getElem_mem hi)
  · rw [List.getD_eq_default _ _ (by omega)]

theorem addLoad_nonneg (loads : List ℚ) (i : Nat) (w : ℚ)
    (hl : ∀ x ∈ loads, 0 ≤ x) (hw : 0 ≤ w) :
    ∀ x ∈ addLoad loads i w, 0 ≤ x := by
  induction loads generalizing i with
  | nil => simp [addLoad]
  | cons l rest ih =>
      cases i with
      | zero =>
          intro x hx
          rcases List.mem_cons.mp hx with h | h
          · have : (0 : ℚ) ≤ l := hl l (by simp)
            simpa [h] using by linarith
          · exact hl x (by simp [h])
      | succ j =>
          intro x hx
          rcases List.mem_cons.mp hx with h | h
          · exact h ▸ hl l (by simp)
          · exact ih j (fun y hy => hl y (by simp [hy])) x h

theorem moveAnts_nonneg (tasks : List ℚ) (loads : List ℚ) (pher : List (List ℚ))
    (taskId : Nat) (draw : Nat → ℚ)
    (hl : ∀ x ∈ loads, 0 ≤ x) (ht : ∀ w ∈ tasks, 0 ≤ w) :
    ∀ x ∈ moveAnts loads pher taskId draw tasks, 0 ≤ x := by
  induction tasks generalizing loads taskId with
  | nil => simpa [moveAnts] using hl
  | cons w ws ih =>
      rw [moveAnts]
      exact ih _ (taskId + 1)
        (addLoad_nonneg loads _ w hl (ht w (by simp)))
        (fun y hy => ht y (by simp [hy]))

theorem evaporate_pos (pher : List (List ℚ))
    (h : ∀ row ∈ pher, ∀ p ∈ row, 0 < p) :
    ∀ row ∈ evaporate pher, ∀ p ∈ row, 0 < p := by
  intro row hrow p hp
  rw [evaporate] at hrow
  rcases List.mem_map.mp hrow with ⟨row0, hrow0, rfl⟩
  rcases List.mem_map.mp hp with ⟨p0, hp0, rfl⟩
  have hpos : (0 : ℚ) < p0 := h row0 hrow0 p0 hp0
  have : (0 : ℚ) < 1 - acoRho := by norm_num [acoRho]
  positivity

theorem depositRow_pos (row : List ℚ) (serverId taskId : Nat)
    (loads tasks : List ℚ)
    (hrow : ∀ p ∈ row, 0 < p)
    (hl : ∀ x ∈ loads, 0 ≤ x) (ht : ∀ w ∈ tasks, 0 ≤ w) :
    ∀ p ∈ depositRow row serverId taskId loads tasks, 0 < p := by
  induction row generalizing serverId with
  | nil => simp [depositRow]
  | cons p ps ih =>
      intro q hq
      rw [depositRow] at hq
      rcases List.mem_cons.mp hq with h | h
      · have hp : (0 : ℚ) < p := hrow p (by simp)
        have hd : (0 : ℚ) ≤ acoQ / (loads.getD serverId 0 + tasks.getD taskId 0) := by
          apply div_nonneg
          · norm_num [acoQ]
          · have h1 := getD_nonneg loads serverId hl
            have h2 := getD_nonneg tasks taskId ht
            linarith
        rw [h]
        linarith
      · exact ih (serverId + 1) (fun y hy => hrow y (by simp [hy])) q h

theorem depositRows_pos (pher : List (List ℚ)) (taskId : Nat)
    (loads tasks : List ℚ)
    (hpher : ∀ row ∈ pher, ∀ p ∈ row, 0 < p)
    (hl : ∀ x ∈ loads, 0 ≤ x) (ht : ∀ w ∈ tasks, 0 ≤ w) :
    ∀ row ∈ depositRows pher taskId loads tasks, ∀ p ∈ row, 0 < p := by
  induction pher generalizing taskId with
  | nil => simp [depositRows]
  | cons row rows ih =>
      intro r hr
      rw [depositRows] at hr
      rcases List.mem_cons.mp hr with h | h
      · rw [h]
        exact depositRow_pos row 0 taskId loads tasks
          (hpher row (by simp)) hl ht
      · exact ih (taskId + 1) (fun r' hr' => hpher r' (by simp [hr'])) r h

theorem updatePheromones_pos (pher : List (List ℚ)) (loads tasks : List ℚ)
    (hpher : ∀ row ∈ pher, ∀ p ∈ row, 0 < p)
    (hl : ∀ x ∈ loads, 0 ≤ x) (ht : ∀ w ∈ tasks, 0 ≤ w) :
    ∀ row ∈ updatePheromones pher loads tasks, ∀ p ∈ row, 0 < p :=
  depositRows_pos (evaporate pher) 0 loads tasks (evaporate_pos pher hpher) hl ht

theorem acoIteration_invariant (st : List ℚ × List (List ℚ)) (tasks : List ℚ)
    (draw : Nat → ℚ)
    (hinv : (∀ x ∈ st.1, 0 ≤ x) ∧ (∀ row ∈ st.2, ∀ p ∈ row, 0 < p))
    (ht : ∀ w ∈ tasks, 0 ≤ w) :
    (∀ x ∈ (acoIteration st tasks draw).1, 0 ≤ x) ∧
    (∀ row ∈ (acoIteration st tasks draw).2, ∀ p ∈ row, 0 < p) := by
  constructor
  · intro x hx
    rw [acoIteration_fst] at hx
    simp [List.eq_of_mem_replicate hx]
  · exact updatePheromones_pos st.2 (moveAnts st.1 st.2 0 draw tasks) tasks hinv.2
      (moveAnts_nonneg tasks st.1 st.2 0 draw hinv.1 ht) ht

theorem acoBalanceLoad_invariant (loads : List ℚ) (tasks : List ℚ)
    (draw : Nat → Nat → ℚ) (n : Nat)
    (hl : ∀ x ∈ loads, 0 ≤ x) (ht : ∀ w ∈ tasks, 0 ≤ w) :
    (∀ x ∈ (acoBalanceLoad loads tasks draw n).1, 0 ≤ x) ∧
    (∀ row ∈ (acoBalanceLoad loads tasks draw n).2, ∀ p ∈ row, 0 < p) := by
  induction n with
  | zero =>
      refine ⟨hl, ?_⟩
      intro row hrow p hp
      have hrow1 : row = List.replicate loads.length 1 := by
        exact List.eq_of_mem_replicate hrow
      rw [hrow1] at hp
      simp [List.eq_of_mem_replicate hp]
  | succ k ih =>
      rw [acoBalanceLoad, List.range_succ, List.foldl_append, List.foldl_cons,
        List.foldl_nil]
      rw [acoBalanceLoad] at ih
      exact acoIteration_invariant _ tasks (draw k) ih ht

/-- **C8.** In the ACO policy, given strictly positive task weights and
nonnegative initial server loads, every pheromone matrix entry remains
strictly positive throughout `balanceLoad`: the entries start at `1.0`, each
evaporation step multiplies by `(1 - rho)` with `rho = 1/2`, and each deposit
adds `Q / (serverLoad + taskWeight)`, which is strictly positive whenever the
server load is nonnegative and the task weight strictly positive; after any
number of iterations (in particular the code's 100) every entry is strictly
positive. -/
theorem aco_pheromones_positive (loads : List ℚ) (tasks : List ℚ)
    (draw : Nat → Nat → ℚ)
    (htasks : ∀ w ∈ tasks, 0 < w) (hloads : ∀ x ∈ loads, 0 ≤ x) :
    (∀ row ∈ initPheromones tasks.length loads.length, ∀ p ∈ row, p = 1) ∧
    (∀ L w : ℚ, 0 ≤ L → 0 < w → 0 < acoQ / (L + w)) ∧
    (∀ n, ∀ row ∈ (acoBalanceLoad loads tasks draw n).2, ∀ p ∈ row, 0 < p) := by
  refine ⟨?_, ?_, ?_⟩
  · intro row hrow p hp
    have hrow1 := List.eq_of_mem_replicate hrow
    rw [hrow1] at hp
    exact List.eq_of_mem_replicate hp
  · intro L w hL hw
    apply div_pos
    · norm_num [acoQ]
    · linarith
  · intro n
    exact (acoBalanceLoad_invariant loads tasks draw n hloads
      (fun w hw => le_of_lt (htasks w hw))).2

/-- Witness for C8: one server with zero load, tasks `[1]`, constant draw 0. -/
theorem aco_pheromones_positive_witness :
    (∀ w ∈ [(1 : ℚ)], 0 < w) ∧ (∀ x ∈ zeroLoads 1, 0 ≤ x) ∧
    (∀ n, ∀ row ∈ (acoBalanceLoad (zeroLoads 1) [(1 : ℚ)] (fun _ _ => 0) n).2,
      ∀ p ∈ row, 0 < p) :=
  ⟨by norm_num, by norm_num [zeroLoads],
    (aco_pheromones_positive (zeroLoads 1) [(1 : ℚ)] (fun _ _ => 0)
      (by norm_num) (by norm_num [zeroLoads])).2.2⟩

/-- **C6 (amended).** With a pool of exactly 1 server (initial load zero) and
any task sequence, the Random (whose only possible draw is server 0),
Round-Robin, Weighted-Round-Robin and Active-Clustering policies each produce
a total accumulated load equal to the sum of the task weights; the
Ant-Colony-Optimization policy instead resets the loads at the end of every
iteration, so its observed total is 0 for every iteration count ≥ 1 (in
particular the code's 100), not the sum of the task weights. -/
theorem one_server_totals (tasks : List ℚ) (choices : List Nat) (draw : Nat → Nat → ℚ)
    (hclen : choices.length = tasks.length) (hcr : ∀ c ∈ choices, c < 1) :
    (randomBalance (zeroLoads 1) choices tasks).sum = tasks.sum ∧
    (roundRobinBalance (zeroLoads 1) 0 tasks).sum = tasks.sum ∧
    (wrrBalance (zeroLoads 1) 0 tasks).sum = tasks.sum ∧
    (activeClusteringBalance (zeroLoads 1) tasks).sum = tasks.sum ∧
    (∀ n, 1 ≤ n → ((acoBalanceLoad (zeroLoads 1) tasks draw n).1).sum = 0) := by
  have hlen : (zeroLoads 1).length = 1 := by simp [zeroLoads]
  have hne : zeroLoads 1 ≠ [] := by
    intro h
    rw [h] at hlen
    simp at hlen
  refine ⟨?_, ?_, ?_, ?_, ?_⟩
  · rw [randomBalance_sum choices tasks _ hclen (by rw [hlen]; exact hcr), zeroLoads_sum]
    ring
  · rw [roundRobinBalance_sum tasks _ 0 (by omega), zeroLoads_sum]
    ring
  · rw [wrrBalance_sum tasks _ 0 (by omega), zeroLoads_sum]
    ring
  · rw [activeClusteringBalance_sum tasks _ hne, zeroLoads_sum]
    ring
  · intro n hn
    rw [acoBalanceLoad_fst _ tasks draw n hn]
    simp

/-- Witness for C6 (amended): tasks `[2, 3]`, draws `[0, 0]`. -/
theorem one_server_totals_witness :
    ([0, 0] : List Nat).length = ([(2 : ℚ), 3]).length ∧ (∀ c ∈ ([0, 0] : List Nat), c < 1) ∧
    ((randomBalance (zeroLoads 1) [0, 0] [(2 : ℚ), 3]).sum = ([(2 : ℚ), 3]).sum ∧
      (roundRobinBalance (zeroLoads 1) 0 [(2 : ℚ), 3]).sum = ([(2 : ℚ), 3]).sum ∧
      (wrrBalance (zeroLoads 1) 0 [(2 : ℚ), 3]).sum = ([(2 : ℚ), 3]).sum ∧
      (activeClusteringBalance (zeroLoads 1) [(2 : ℚ), 3]).sum = ([(2 : ℚ), 3]).sum ∧
      (∀ n, 1 ≤ n →
        ((acoBalanceLoad (zeroLoads 1) [(2 : ℚ), 3] (fun _ _ => 0) n).1).sum = 0)) :=
  ⟨by decide, by decide,
    one_server_totals [(2 : ℚ), 3] [0, 0] (fun _ _ => 0) (by decide) (by decide)⟩

/-- Counterexample to C6 as stated: with 1 server and task list `[2]`, the
Ant-Colony-Optimization policy (iteration count 100 as in the code) produces
total load 0, not the task-weight sum 2, so the five policies do not all
produce the same total equal to the sum of the task weights. -/
theorem one_server_totals_counterexample :
    ((acoBalanceLoad (zeroLoads 1) [(2 : ℚ)] (fun _ _ => 0) acoNumIterations).1).sum = 0 ∧
    (0 : ℚ) ≠ ([(2 : ℚ)]).sum := by
  constructor
  · rw [acoBalanceLoad_fst (zeroLoads 1) [(2 : ℚ)] (fun _ _ => 0) acoNumIterations
      (by norm_num [acoNumIterations])]
    simp
  · norm_num

end LoadSim
